import Mathlib

/-!
The root command of ssl-checker (`cmd/root.go`).

A shallow embedding of the root command's `Run`, of `sliceContains` and of
`LevelWriter.WriteLevel`, followed by the properties proved about them.

Modelling conventions.

* A Go `string` is a `String`.  The only string operations of `Run` are
  equality and the split at commas; the comma is one byte in UTF-8 and never
  part of another character, so splitting characters and splitting bytes agree.
* A Go `interface{}` value coming out of the configuration store is a `Value`:
  the dynamic types the type switches of `Run` tell apart (`string`,
  `[]interface{}`) and the remaining ones (maps, numbers, booleans, `nil`).
* A Go `map[string]T` built by the program is an association list with at most
  one pair per key, written through `mapSet` (`m[k] = v`) and read through
  `mapGet` (`v, ok := m[k]`).
* The `queries` map that `Run` ranges over is the list of its entries in the
  order the `range` statement happens to visit them.  Go leaves that order
  unspecified, so every statement below is proved for every list; that the
  keys of a map are pairwise distinct is the hypothesis `Nodup` on the keys.
* `log.Fatal().Msgf` and `os.Exit` end the process: they are outcomes of `Run`.
-/

namespace SslChecker

/-! ## Data model -/

/-- Dynamic values held by the configuration store (`interface{}`). -/
inductive Value where
  | str (s : String)
  | list (xs : List Value)
  | map (kvs : List (String × Value))
  | num (n : Int)
  | bool (b : Bool)
  | null

/-- Association-list model of a Go `map[string]T`. -/
abbrev GoMap (α : Type) := List (String × α)

/-- Map assignment `m[k] = v`: replaces the value of an existing key, adds the key otherwise. -/
def mapSet {α : Type} : GoMap α → String → α → GoMap α
  | [], k, v => [(k, v)]
  | (k', v') :: rest, k, v =>
    if k' = k then (k, v) :: rest else (k', v') :: mapSet rest k v

/-- Map lookup `v, ok := m[k]`. -/
def mapGet {α : Type} : GoMap α → String → Option α
  | [], _ => none
  | (k', v') :: rest, k => if k' = k then some v' else mapGet rest k

/-- The keys of a map. -/
def mapKeys {α : Type} (m : GoMap α) : List String := m.map Prod.fst

/-- Slice element assignment `s[k] = v` for an index inside the slice. -/
def sliceSet : List String → Nat → String → List String
  | [], _, _ => []
  | _ :: xs, 0, v => v :: xs
  | x :: xs, k + 1, v => x :: sliceSet xs k v

/-- The pieces of `strings.Split(s, sep)` for a one-character separator, on the
characters of `s`; `cur` holds the piece being read, reversed. -/
def splitChars (sep : Char) : List Char → List Char → List String
  | [], cur => [String.mk cur.reverse]
  | c :: cs, cur =>
    if c = sep then String.mk cur.reverse :: splitChars sep cs []
    else splitChars sep cs (c :: cur)

/-- Go's `strings.Split(s, sep)` for a one-character separator: the substrings
between the occurrences of `sep`; a string without `sep` gives the one piece `s`. -/
def stringsSplit (s : String) (sep : Char) : List String :=
  splitChars sep s.data []

/-- The function `sliceContains` (root.go, lines 93-101). -/
def sliceContains : List String → String → Bool
  | [], _ => false
  | v :: s, str => if v = str then true else sliceContains s str

/-- The two places where `Run` calls `log.Fatal` (lines 62 and 67), with the
environment being processed. -/
inductive FatalSite where
  | queryOption (env : String) (k : Nat)
  | queriesOption (env : String)
  deriving DecidableEq, Repr

/-- How an execution of the root command's `Run` ends. -/
inductive Outcome where
  /-- A call of `log.Fatal().Msgf(...)`: the message is logged and the process exits with status 1. -/
  | fatal (site : FatalSite)
  /-- The `else` branch: `os.Exit(1)` (line 78). -/
  | nothingToDo
  /-- The type assertion `queries.(map[string]interface{})` fails (line 48). -/
  | assertPanic
  /-- Line 73 is reached: `runQueries(fileTargets, domainTargets)`. -/
  | runQueries (fileTargets : GoMap String) (domainTargets : GoMap (List String))
  deriving DecidableEq, Repr

/-- Whether the execution calls `runQueries`. -/
def Outcome.callsRunQueries : Outcome → Bool
  | .runQueries _ _ => true
  | _ => false

/-- Whether the execution ends in `log.Fatal`. -/
def Outcome.isFatal : Outcome → Bool
  | .fatal _ => true
  | _ => false

/-- The exit status fixed by `Run` itself (`none` once `runQueries` has taken over). -/
def Outcome.exitStatus : Outcome → Option Nat
  | .fatal _ => some 1
  | .nothingToDo => some 1
  | .assertPanic => some 2
  | .runQueries _ _ => none

/-- What `Run` reads: the bound flags, the `--environments` string and the
result of `viper.Get("queries")` (`Value.null` is Go's `nil`: the key is not set). -/
structure Config where
  debug : Bool
  silent : Bool
  timeout : Nat
  envCheck : String
  queries : Value

/-- The two maps `Run` builds. -/
structure Targets where
  fileTargets : GoMap String
  domainTargets : GoMap (List String)
  deriving DecidableEq, Repr

/-! ## The root command -/

/-- The inner loop `for k, domain := range data` (lines 57-65), from index `k` on:
`domains` is the slice as filled so far and `dt` is `domainTargets`.  The map
entry shares its backing array with `domains`; as each iteration stores the
slice right after writing it, storing its value gives the same map at the end
of every iteration. -/
def rangeDomains (env : String) :
    List Value → Nat → List String → GoMap (List String) → Except FatalSite (GoMap (List String))
  | [], _, _, dt => .ok dt
  | .str domain :: rest, k, domains, dt =>
    rangeDomains env rest (k + 1) (sliceSet domains k domain)
      (mapSet dt env (sliceSet domains k domain))
  | _ :: _, k, _, _ => .error (.queryOption env k)

/-- One iteration of the loop over `queries` (lines 48-69). -/
def processEntry (envCheck : String) (st : Targets) (e : String × Value) :
    Except FatalSite Targets :=
  if envCheck != "" && !sliceContains (stringsSplit envCheck ',') e.1 then
    .ok st
  else
    match e.2 with
    | .str data => .ok { st with fileTargets := mapSet st.fileTargets e.1 data }
    | .list data =>
      match rangeDomains e.1 data 0 (List.replicate data.length "") st.domainTargets with
      | .ok dt => .ok { st with domainTargets := dt }
      | .error site => .error site
    | _ => .error (.queriesOption e.1)

/-- The loop `for env, data := range queries` over the entries in visiting order. -/
def rangeQueries (envCheck : String) : List (String × Value) → Targets → Except FatalSite Targets
  | [], st => .ok st
  | e :: es, st =>
    match processEntry envCheck st e with
    | .ok st' => rangeQueries envCheck es st'
    | .error site => .error site

/-- The root command's `Run` (lines 35-80). -/
def Run (cfg : Config) : Outcome :=
  match cfg.queries with
  | .null => .nothingToDo
  | .map entries =>
    match rangeQueries cfg.envCheck entries ⟨[], []⟩ with
    | .ok st => .runQueries st.fileTargets st.domainTargets
    | .error site => .fatal site
  | _ => .assertPanic

/-! ## The levelled writer -/

/-- Result `(n int, err error)` of a write. -/
structure WriteResult where
  n : Int
  err : Option String
  deriving DecidableEq, Repr

/-- The struct `LevelWriter` (lines 153-156): the embedded `io.Writer`, whose `Write` acts
on a sink of type `σ`, and the threshold `Level`. -/
structure LevelWriter (σ : Type) where
  Write : σ → List Nat → WriteResult × σ
  Level : Int

/-- The method `LevelWriter.WriteLevel` (lines 158-163). -/
def LevelWriter.WriteLevel {σ : Type} (lw : LevelWriter σ) (l : Int) (p : List Nat) (sink : σ) :
    WriteResult × σ :=
  if l ≥ lw.Level then lw.Write sink p else (⟨p.length, none⟩, sink)

/-! ## Predicates used in the statements -/

/-- The dynamic value is a `string`. -/
def Value.isStr : Value → Bool
  | .str _ => true
  | _ => false

/-- A well-formed target: a string, or a list whose elements are all strings. -/
def Value.wellFormed : Value → Bool
  | .str _ => true
  | .list xs => xs.all Value.isStr
  | _ => false

/-- The environment passes the `--environments` filter: the filter string is
empty, or the name is one of its comma-separated pieces. -/
def PassesFilter (envCheck env : String) : Prop :=
  envCheck = "" ∨ env ∈ stringsSplit envCheck ','

instance (envCheck env : String) : Decidable (PassesFilter envCheck env) :=
  inferInstanceAs (Decidable (envCheck = "" ∨ env ∈ stringsSplit envCheck ','))

/-! ## Maps and slices -/

theorem mapGet_mapSet {α : Type} (m : GoMap α) (k k' : String) (v : α) :
    mapGet (mapSet m k v) k' = if k = k' then some v else mapGet m k' := by
  induction m with
  | nil => simp [mapSet, mapGet]
  | cons p rest ih =>
    obtain ⟨a, b⟩ := p
    by_cases h : a = k
    · subst h
      by_cases h2 : a = k' <;> simp [mapSet, mapGet, h2]
    · by_cases h' : a = k'
      · subst h'
        have hk : ¬ k = a := fun e => h e.symm
        simp [mapSet, mapGet, h, hk]
      · simp [mapSet, mapGet, h, h', ih]

theorem mapSet_mapSet {α : Type} (m : GoMap α) (k : String) (v w : α) :
    mapSet (mapSet m k v) k w = mapSet m k w := by
  induction m with
  | nil => simp [mapSet]
  | cons p rest ih =>
    obtain ⟨a, b⟩ := p
    by_cases h : a = k
    · simp [mapSet, h]
    · simp [mapSet, h, ih]

theorem mapGet_eq_none_iff {α : Type} (m : GoMap α) (k : String) :
    mapGet m k = none ↔ k ∉ mapKeys m := by
  induction m with
  | nil => simp [mapGet, mapKeys]
  | cons p rest ih =>
    obtain ⟨a, b⟩ := p
    by_cases h : a = k
    · simp [mapGet, mapKeys, h]
    · have hk : ¬ k = a := fun e => h e.symm
      simp only [mapKeys] at ih
      simp [mapGet, mapKeys, h, hk, ih]

theorem mem_mapKeys_iff {α : Type} (m : GoMap α) (k : String) :
    k ∈ mapKeys m ↔ ∃ v, mapGet m k = some v := by
  have h := mapGet_eq_none_iff m k
  cases hg : mapGet m k with
  | none =>
    rw [hg] at h
    simp [h.mp rfl]
  | some v =>
    rw [hg] at h
    simp only [reduceCtorEq, false_iff, not_not] at h
    simp [h]

theorem sliceSet_append (pre suf : List String) (old v : String) :
    sliceSet (pre ++ old :: suf) pre.length v = pre ++ v :: suf := by
  induction pre with
  | nil => simp [sliceSet]
  | cons x xs ih => simp [sliceSet, ih]

theorem sliceContains_iff (s : List String) (str : String) :
    sliceContains s str = true ↔ str ∈ s := by
  induction s with
  | nil => simp [sliceContains]
  | cons v rest ih =>
    by_cases h : v = str
    · simp [sliceContains, h]
    · have hk : ¬ str = v := fun e => h e.symm
      simp [sliceContains, h, hk, ih]

/-- The guard of line 49 is false exactly for the environments that pass the filter. -/
theorem guard_eq_false_iff (envCheck env : String) :
    (envCheck != "" && !sliceContains (stringsSplit envCheck ',') env) = false ↔
      PassesFilter envCheck env := by
  unfold PassesFilter
  by_cases h : envCheck = ""
  · simp [h]
  · cases hc : sliceContains (stringsSplit envCheck ',') env with
    | true => simp [h, (sliceContains_iff _ _).mp hc]
    | false =>
      have hn : env ∉ stringsSplit envCheck ',' := fun hm => by
        rw [(sliceContains_iff _ _).mpr hm] at hc
        exact Bool.noConfusion hc
      simp [h, hn]

theorem guard_eq_true_iff (envCheck env : String) :
    (envCheck != "" && !sliceContains (stringsSplit envCheck ',') env) = true ↔
      ¬ PassesFilter envCheck env := by
  rw [← guard_eq_false_iff]
  simp

theorem isStr_iff (v : Value) : v.isStr = true ↔ ∃ s, v = .str s := by
  cases v <;> simp [Value.isStr]

theorem all_isStr_iff (data : List Value) :
    data.all Value.isStr = true ↔ ∃ hosts : List String, data = hosts.map Value.str := by
  induction data with
  | nil => exact ⟨fun _ => ⟨[], rfl⟩, fun _ => rfl⟩
  | cons v rest ih =>
    constructor
    · intro h
      simp only [List.all_cons, Bool.and_eq_true] at h
      obtain ⟨s, hs⟩ := (isStr_iff v).mp h.1
      obtain ⟨hosts, hh⟩ := ih.mp h.2
      exact ⟨s :: hosts, by simp [hs, hh]⟩
    · rintro ⟨hosts, hh⟩
      cases hosts with
      | nil => simp at hh
      | cons s hosts =>
        simp only [List.map_cons, List.cons.injEq] at hh
        simp only [List.all_cons, Bool.and_eq_true]
        exact ⟨(isStr_iff v).mpr ⟨s, hh.1⟩, ih.mpr ⟨hosts, hh.2⟩⟩

/-! ## The inner loop -/

/-- On a list of strings the inner loop never fails; it leaves `domainTargets`
untouched for the empty list and otherwise ends with the filled slice under `env`. -/
theorem rangeDomains_strings (env : String) (hosts : List String) :
    ∀ (pre suf : List String) (dt : GoMap (List String)), suf.length = hosts.length →
      rangeDomains env (hosts.map Value.str) pre.length (pre ++ suf) dt =
        .ok (if hosts = [] then dt else mapSet dt env (pre ++ hosts)) := by
  induction hosts with
  | nil => intro pre suf dt _; simp [rangeDomains]
  | cons h hs ih =>
    intro pre suf dt hlen
    cases suf with
    | nil => simp at hlen
    | cons old suf =>
      simp only [List.length_cons, Nat.add_right_cancel_iff] at hlen
      simp only [List.map_cons, rangeDomains, sliceSet_append]
      have step := ih (pre ++ [h]) suf (mapSet dt env (pre ++ h :: suf)) hlen
      simp only [List.length_append, List.length_singleton, List.append_assoc,
        List.singleton_append] at step
      rw [step]
      cases hs with
      | nil =>
        cases suf with
        | nil => simp
        | cons _ _ => simp at hlen
      | cons _ _ => simp [mapSet_mapSet]

theorem rangeDomains_replicate (env : String) (hosts : List String) (dt : GoMap (List String)) :
    rangeDomains env (hosts.map Value.str) 0
        (List.replicate (hosts.map Value.str).length "") dt =
      .ok (if hosts = [] then dt else mapSet dt env hosts) := by
  have h := rangeDomains_strings env hosts [] (List.replicate hosts.length "") dt (by simp)
  simpa using h

/-- An element that is not a string stops the inner loop with `log.Fatal`. -/
theorem rangeDomains_error (env : String) (data : List Value) :
    data.all Value.isStr = false →
      ∀ (k : Nat) (domains : List String) (dt : GoMap (List String)),
        ∃ site, rangeDomains env data k domains dt = .error site := by
  induction data with
  | nil => intro h; simp at h
  | cons v rest ih =>
    intro h k domains dt
    cases v with
    | str s =>
      have hr : rest.all Value.isStr = false := by
        simpa [Value.isStr] using h
      simpa [rangeDomains] using ih hr (k + 1) _ _
    | list xs => exact ⟨_, rfl⟩
    | map kvs => exact ⟨_, rfl⟩
    | num n => exact ⟨_, rfl⟩
    | bool b => exact ⟨_, rfl⟩
    | null => exact ⟨_, rfl⟩

/-! ## One iteration of the outer loop -/

/-- The four ways one iteration can go: skipped by the filter, a file target,
a domain list, or a malformed value. -/
theorem processEntry_cases (envCheck : String) (st : Targets) (e : String × Value) :
    (¬ PassesFilter envCheck e.1 ∧ processEntry envCheck st e = .ok st) ∨
    (PassesFilter envCheck e.1 ∧ ∃ s, e.2 = .str s ∧
      processEntry envCheck st e =
        .ok { st with fileTargets := mapSet st.fileTargets e.1 s }) ∨
    (PassesFilter envCheck e.1 ∧ ∃ hosts : List String, e.2 = .list (hosts.map Value.str) ∧
      processEntry envCheck st e =
        .ok { st with domainTargets :=
                if hosts = [] then st.domainTargets else mapSet st.domainTargets e.1 hosts }) ∨
    (PassesFilter envCheck e.1 ∧ e.2.wellFormed = false ∧
      ∃ site, processEntry envCheck st e = .error site) := by
  obtain ⟨env, data⟩ := e
  cases hg : (envCheck != "" && !sliceContains (stringsSplit envCheck ',') env) with
  | true =>
    left
    exact ⟨(guard_eq_true_iff _ _).mp hg, by simp [processEntry, hg]⟩
  | false =>
    right
    have hp := (guard_eq_false_iff _ _).mp hg
    cases data with
    | str s => left; exact ⟨hp, s, rfl, by simp [processEntry, hg]⟩
    | list xs =>
      cases hall : xs.all Value.isStr with
      | true =>
        right; left
        obtain ⟨hosts, hh⟩ := (all_isStr_iff xs).mp hall
        subst hh
        refine ⟨hp, hosts, rfl, ?_⟩
        simp only [processEntry, hg, Bool.false_eq_true, if_false]
        rw [rangeDomains_replicate]
      | false =>
        right; right
        obtain ⟨site, hs⟩ := rangeDomains_error env xs hall 0
          (List.replicate xs.length "") st.domainTargets
        refine ⟨hp, by simp [Value.wellFormed, hall], site, ?_⟩
        simp only [processEntry, hg, Bool.false_eq_true, if_false]
        rw [hs]
    | map kvs => right; right; exact ⟨hp, rfl, .queriesOption env, by simp [processEntry, hg]⟩
    | num n => right; right; exact ⟨hp, rfl, .queriesOption env, by simp [processEntry, hg]⟩
    | bool b => right; right; exact ⟨hp, rfl, .queriesOption env, by simp [processEntry, hg]⟩
    | null => right; right; exact ⟨hp, rfl, .queriesOption env, by simp [processEntry, hg]⟩

theorem processEntry_skip (envCheck : String) (st : Targets) (e : String × Value)
    (h : ¬ PassesFilter envCheck e.1) : processEntry envCheck st e = .ok st := by
  have hg := (guard_eq_true_iff _ _).mpr h
  simp [processEntry, hg]

theorem processEntry_str (envCheck : String) (st : Targets) (env s : String)
    (h : PassesFilter envCheck env) :
    processEntry envCheck st (env, .str s) =
      .ok { st with fileTargets := mapSet st.fileTargets env s } := by
  have hg := (guard_eq_false_iff _ _).mpr h
  simp [processEntry, hg]

theorem processEntry_list (envCheck : String) (st : Targets) (env : String)
    (hosts : List String) (h : PassesFilter envCheck env) :
    processEntry envCheck st (env, .list (hosts.map Value.str)) =
      .ok { st with domainTargets :=
              if hosts = [] then st.domainTargets else mapSet st.domainTargets env hosts } := by
  have hg := (guard_eq_false_iff _ _).mpr h
  simp only [processEntry, hg, Bool.false_eq_true, if_false]
  rw [rangeDomains_replicate]

/-- An iteration leaves the entries of the other environments alone. -/
theorem processEntry_frame (envCheck : String) (st st1 : Targets) (e : String × Value)
    (k : String) (hok : processEntry envCheck st e = .ok st1) (hk : e.1 ≠ k) :
    mapGet st1.fileTargets k = mapGet st.fileTargets k ∧
      mapGet st1.domainTargets k = mapGet st.domainTargets k := by
  rcases processEntry_cases envCheck st e with
    ⟨_, h⟩ | ⟨_, s, _, h⟩ | ⟨_, hosts, _, h⟩ | ⟨_, _, site, h⟩
  · rw [h] at hok
    cases hok
    exact ⟨rfl, rfl⟩
  · rw [h] at hok
    cases hok
    simp [mapGet_mapSet, hk]
  · rw [h] at hok
    cases hok
    by_cases hh : hosts = [] <;> simp [mapGet_mapSet, hk, hh]
  · rw [h] at hok
    cases hok

/-- A file target present after an iteration was there before or was just read. -/
theorem processEntry_sound_file (envCheck : String) (st st1 : Targets) (e : String × Value)
    (k v : String) (hok : processEntry envCheck st e = .ok st1)
    (hv : mapGet st1.fileTargets k = some v) :
    mapGet st.fileTargets k = some v ∨ (e = (k, .str v) ∧ PassesFilter envCheck k) := by
  obtain ⟨env, data⟩ := e
  rcases processEntry_cases envCheck st (env, data) with
    ⟨_, h⟩ | ⟨hp, s, hs, h⟩ | ⟨_, hosts, _, h⟩ | ⟨_, _, site, h⟩
  · rw [h] at hok
    cases hok
    exact Or.inl hv
  · rw [h] at hok
    cases hok
    simp only at hs hp
    simp only [mapGet_mapSet] at hv
    by_cases hk : env = k
    · subst hk
      simp only [if_true, Option.some.injEq] at hv
      subst hv
      exact Or.inr ⟨by rw [hs], hp⟩
    · simp only [hk, if_false] at hv
      exact Or.inl hv
  · rw [h] at hok
    cases hok
    exact Or.inl hv
  · rw [h] at hok
    cases hok

/-- A domain list present after an iteration was there before or was just read,
and then it is not empty. -/
theorem processEntry_sound_domain (envCheck : String) (st st1 : Targets) (e : String × Value)
    (k : String) (l : List String) (hok : processEntry envCheck st e = .ok st1)
    (hv : mapGet st1.domainTargets k = some l) :
    mapGet st.domainTargets k = some l ∨
      (l ≠ [] ∧ e = (k, .list (l.map Value.str)) ∧ PassesFilter envCheck k) := by
  obtain ⟨env, data⟩ := e
  rcases processEntry_cases envCheck st (env, data) with
    ⟨_, h⟩ | ⟨_, s, _, h⟩ | ⟨hp, hosts, hs, h⟩ | ⟨_, _, site, h⟩
  · rw [h] at hok
    cases hok
    exact Or.inl hv
  · rw [h] at hok
    cases hok
    exact Or.inl hv
  · rw [h] at hok
    cases hok
    simp only at hs hp hv
    by_cases hh : hosts = []
    · simp only [hh, if_true] at hv
      exact Or.inl hv
    · simp only [hh, if_false, mapGet_mapSet] at hv
      by_cases hk : env = k
      · subst hk
        simp only [if_true, Option.some.injEq] at hv
        subst hv
        exact Or.inr ⟨hh, by rw [hs], hp⟩
      · simp only [hk, if_false] at hv
        exact Or.inl hv
  · rw [h] at hok
    cases hok

/-! ## The outer loop -/

theorem rangeQueries_cons_ok (envCheck : String) (e : String × Value)
    (es : List (String × Value)) (st st' : Targets)
    (hok : rangeQueries envCheck (e :: es) st = .ok st') :
    ∃ st1, processEntry envCheck st e = .ok st1 ∧ rangeQueries envCheck es st1 = .ok st' := by
  simp only [rangeQueries] at hok
  cases hp : processEntry envCheck st e with
  | ok st1 =>
    rw [hp] at hok
    exact ⟨st1, rfl, hok⟩
  | error site =>
    rw [hp] at hok
    cases hok

/-- In a map an environment has one value. -/
theorem value_unique (es : List (String × Value)) (k : String) (v w : Value)
    (hnd : (es.map Prod.fst).Nodup) (hv : (k, v) ∈ es) (hw : (k, w) ∈ es) : v = w := by
  induction es with
  | nil => cases hv
  | cons e es ih =>
    simp only [List.map_cons, List.nodup_cons] at hnd
    have hfst : ∀ u, (k, u) ∈ es → k ∈ es.map Prod.fst := fun u hu =>
      List.mem_map.mpr ⟨(k, u), hu, rfl⟩
    rcases List.mem_cons.mp hv with h1 | h1 <;> rcases List.mem_cons.mp hw with h2 | h2
    · rw [← h2] at h1
      exact (Prod.mk.inj h1).2
    · rw [← h1] at hnd
      exact absurd (hfst w h2) hnd.1
    · rw [← h2] at hnd
      exact absurd (hfst v h1) hnd.1
    · exact ih hnd.2 h1 h2

/-- The loop leaves alone the environments that are not keys of `queries`. -/
theorem rangeQueries_frame (envCheck : String) (k : String) (es : List (String × Value)) :
    ∀ st st' : Targets, k ∉ es.map Prod.fst → rangeQueries envCheck es st = .ok st' →
      mapGet st'.fileTargets k = mapGet st.fileTargets k ∧
        mapGet st'.domainTargets k = mapGet st.domainTargets k := by
  induction es with
  | nil =>
    intro st st' _ hok
    simp only [rangeQueries] at hok
    cases hok
    exact ⟨rfl, rfl⟩
  | cons e es ih =>
    intro st st' hk hok
    simp only [List.map_cons, List.mem_cons, not_or] at hk
    obtain ⟨st1, h1, h2⟩ := rangeQueries_cons_ok envCheck e es st st' hok
    have hf := processEntry_frame envCheck st st1 e k h1 (fun h => hk.1 h.symm)
    have hr := ih st1 st' hk.2 h2
    exact ⟨hr.1.trans hf.1, hr.2.trans hf.2⟩

/-- Every file target found after the loop was there before it or comes from a
string entry that passes the filter. -/
theorem rangeQueries_sound_file (envCheck : String) (k v : String)
    (es : List (String × Value)) :
    ∀ st st' : Targets, rangeQueries envCheck es st = .ok st' →
      mapGet st'.fileTargets k = some v →
        mapGet st.fileTargets k = some v ∨ ((k, .str v) ∈ es ∧ PassesFilter envCheck k) := by
  induction es with
  | nil =>
    intro st st' hok hv
    simp only [rangeQueries] at hok
    cases hok
    exact Or.inl hv
  | cons e es ih =>
    intro st st' hok hv
    obtain ⟨st1, h1, h2⟩ := rangeQueries_cons_ok envCheck e es st st' hok
    rcases ih st1 st' h2 hv with h | ⟨hm, hp⟩
    · rcases processEntry_sound_file envCheck st st1 e k v h1 h with h' | ⟨he, hp⟩
      · exact Or.inl h'
      · exact Or.inr ⟨by rw [he]; exact List.mem_cons_self _ _, hp⟩
    · exact Or.inr ⟨List.mem_cons_of_mem _ hm, hp⟩

/-- Every domain list found after the loop was there before it or comes from a
non-empty list entry that passes the filter. -/
theorem rangeQueries_sound_domain (envCheck : String) (k : String) (l : List String)
    (es : List (String × Value)) :
    ∀ st st' : Targets, rangeQueries envCheck es st = .ok st' →
      mapGet st'.domainTargets k = some l →
        mapGet st.domainTargets k = some l ∨
          (l ≠ [] ∧ (k, .list (l.map Value.str)) ∈ es ∧ PassesFilter envCheck k) := by
  induction es with
  | nil =>
    intro st st' hok hv
    simp only [rangeQueries] at hok
    cases hok
    exact Or.inl hv
  | cons e es ih =>
    intro st st' hok hv
    obtain ⟨st1, h1, h2⟩ := rangeQueries_cons_ok envCheck e es st st' hok
    rcases ih st1 st' h2 hv with h | ⟨hl, hm, hp⟩
    · rcases processEntry_sound_domain envCheck st st1 e k l h1 h with h' | ⟨hl, he, hp⟩
      · exact Or.inl h'
      · exact Or.inr ⟨hl, by rw [he]; exact List.mem_cons_self _ _, hp⟩
    · exact Or.inr ⟨hl, List.mem_cons_of_mem _ hm, hp⟩

/-- A string entry that passes the filter is a file target after the loop. -/
theorem rangeQueries_complete_file (envCheck : String) (k v : String)
    (es : List (String × Value)) :
    ∀ st st' : Targets, (es.map Prod.fst).Nodup → (k, .str v) ∈ es →
      PassesFilter envCheck k → rangeQueries envCheck es st = .ok st' →
        mapGet st'.fileTargets k = some v := by
  induction es with
  | nil => intro _ _ _ hm; cases hm
  | cons e es ih =>
    intro st st' hnd hm hp hok
    simp only [List.map_cons, List.nodup_cons] at hnd
    obtain ⟨st1, h1, h2⟩ := rangeQueries_cons_ok envCheck e es st st' hok
    rcases List.mem_cons.mp hm with he | he
    · subst he
      rw [processEntry_str envCheck st k v hp] at h1
      cases h1
      rw [(rangeQueries_frame envCheck k es _ st' hnd.1 h2).1]
      simp [mapGet_mapSet]
    · exact ih st1 st' hnd.2 he hp h2

/-- A non-empty list entry that passes the filter is a domain target after the loop. -/
theorem rangeQueries_complete_domain (envCheck : String) (k : String) (l : List String)
    (es : List (String × Value)) :
    ∀ st st' : Targets, (es.map Prod.fst).Nodup → (k, .list (l.map Value.str)) ∈ es →
      l ≠ [] → PassesFilter envCheck k → rangeQueries envCheck es st = .ok st' →
        mapGet st'.domainTargets k = some l := by
  induction es with
  | nil => intro _ _ _ hm; cases hm
  | cons e es ih =>
    intro st st' hnd hm hl hp hok
    simp only [List.map_cons, List.nodup_cons] at hnd
    obtain ⟨st1, h1, h2⟩ := rangeQueries_cons_ok envCheck e es st st' hok
    rcases List.mem_cons.mp hm with he | he
    · subst he
      rw [processEntry_list envCheck st k l hp] at h1
      cases h1
      rw [(rangeQueries_frame envCheck k es _ st' hnd.1 h2).2]
      simp [mapGet_mapSet, hl]
    · exact ih st1 st' hnd.2 he hl hp h2

/-- The loop completes when every entry that passes the filter is well-formed. -/
theorem rangeQueries_total (envCheck : String) (es : List (String × Value)) :
    ∀ st : Targets, (∀ e ∈ es, PassesFilter envCheck e.1 → e.2.wellFormed = true) →
      ∃ st', rangeQueries envCheck es st = .ok st' := by
  induction es with
  | nil => intro st _; exact ⟨st, rfl⟩
  | cons e es ih =>
    intro st hwf
    have hrest : ∀ e' ∈ es, PassesFilter envCheck e'.1 → e'.2.wellFormed = true :=
      fun e' he' => hwf e' (List.mem_cons_of_mem _ he')
    rcases processEntry_cases envCheck st e with
      ⟨_, h⟩ | ⟨_, s, _, h⟩ | ⟨_, hosts, _, h⟩ | ⟨hp, hbad, _, _⟩
    · simp only [rangeQueries, h]
      exact ih _ hrest
    · simp only [rangeQueries, h]
      exact ih _ hrest
    · simp only [rangeQueries, h]
      exact ih _ hrest
    · rw [hwf e (List.mem_cons_self _ _) hp] at hbad
      cases hbad

/-- The loop ends in `log.Fatal` when some entry that passes the filter is malformed. -/
theorem rangeQueries_fatal (envCheck : String) (es : List (String × Value)) :
    ∀ st : Targets, (∃ e ∈ es, PassesFilter envCheck e.1 ∧ e.2.wellFormed = false) →
      ∃ site, rangeQueries envCheck es st = .error site := by
  induction es with
  | nil => rintro _ ⟨e, he, _⟩; cases he
  | cons e es ih =>
    rintro st ⟨bad, hmem, hp, hbad⟩
    cases h1 : processEntry envCheck st e with
    | error site => exact ⟨site, by simp only [rangeQueries, h1]⟩
    | ok st1 =>
      simp only [rangeQueries, h1]
      apply ih
      rcases List.mem_cons.mp hmem with he | he
      · subst he
        rcases processEntry_cases envCheck st bad with
          ⟨hn, _⟩ | ⟨_, s, hs, _⟩ | ⟨_, hosts, hs, _⟩ | ⟨_, _, site, h⟩
        · exact absurd hp hn
        · rw [hs] at hbad
          cases hbad
        · rw [hs] at hbad
          have : (hosts.map Value.str).all Value.isStr = true :=
            (all_isStr_iff _).mpr ⟨hosts, rfl⟩
          simp only [Value.wellFormed, this] at hbad
          cases hbad
        · rw [h] at h1
          cases h1
      · exact ⟨bad, he, hp, hbad⟩

/-- The loop changes nothing when the filter removes every entry. -/
theorem rangeQueries_all_skipped (envCheck : String) (es : List (String × Value)) :
    ∀ st : Targets, (∀ e ∈ es, ¬ PassesFilter envCheck e.1) →
      rangeQueries envCheck es st = .ok st := by
  induction es with
  | nil => intro st _; rfl
  | cons e es ih =>
    intro st h
    simp only [rangeQueries, processEntry_skip envCheck st e (h e (List.mem_cons_self _ _))]
    exact ih st (fun e' he' => h e' (List.mem_cons_of_mem _ he'))

/-- What `Run` does on a `queries` map, in terms of the loop. -/
theorem Run_map (cfg : Config) (entries : List (String × Value))
    (hq : cfg.queries = .map entries) :
    Run cfg =
      match rangeQueries cfg.envCheck entries ⟨[], []⟩ with
      | .ok st => .runQueries st.fileTargets st.domainTargets
      | .error site => .fatal site := by
  simp only [Run, hq]

/-- When `Run` reaches `runQueries`, its arguments are the maps the loop built. -/
theorem Run_runQueries_iff (cfg : Config) (entries : List (String × Value))
    (hq : cfg.queries = .map entries) (ft : GoMap String) (dt : GoMap (List String)) :
    Run cfg = .runQueries ft dt ↔
      rangeQueries cfg.envCheck entries ⟨[], []⟩ = .ok ⟨ft, dt⟩ := by
  rw [Run_map cfg entries hq]
  cases h : rangeQueries cfg.envCheck entries ⟨[], []⟩ with
  | ok st =>
    obtain ⟨a, b⟩ := st
    simp
  | error site => simp

/-! ## The environment filter -/

/-- C1. With a non-empty `--environments` string, every key of the `fileTargets`
map and every key of the `domainTargets` map that `Run` builds and hands to
`runQueries` is one of the pieces of `strings.Split(envCheck, ",")`; an
environment that is not one of the pieces is a key of neither map. -/
theorem Run_targets_within_filter (cfg : Config) (entries : List (String × Value))
    (ft : GoMap String) (dt : GoMap (List String))
    (hq : cfg.queries = .map entries) (hne : cfg.envCheck ≠ "")
    (hrun : Run cfg = .runQueries ft dt) :
    (∀ env ∈ mapKeys ft, env ∈ stringsSplit cfg.envCheck ',') ∧
    (∀ env ∈ mapKeys dt, env ∈ stringsSplit cfg.envCheck ',') ∧
    (∀ env, env ∉ stringsSplit cfg.envCheck ',' → env ∉ mapKeys ft ∧ env ∉ mapKeys dt) := by
  have hloop := (Run_runQueries_iff cfg entries hq ft dt).mp hrun
  have hfile : ∀ env ∈ mapKeys ft, env ∈ stringsSplit cfg.envCheck ',' := by
    intro env henv
    obtain ⟨v, hv⟩ := (mem_mapKeys_iff ft env).mp henv
    rcases rangeQueries_sound_file cfg.envCheck env v entries _ _ hloop hv with h | ⟨_, hp⟩
    · simp [mapGet] at h
    · rcases hp with h | h
      · exact absurd h hne
      · exact h
  have hdom : ∀ env ∈ mapKeys dt, env ∈ stringsSplit cfg.envCheck ',' := by
    intro env henv
    obtain ⟨l, hl⟩ := (mem_mapKeys_iff dt env).mp henv
    rcases rangeQueries_sound_domain cfg.envCheck env l entries _ _ hloop hl with
      h | ⟨_, _, hp⟩
    · simp [mapGet] at h
    · rcases hp with h | h
      · exact absurd h hne
      · exact h
  exact ⟨hfile, hdom, fun env hn => ⟨fun h => hn (hfile env h), fun h => hn (hdom env h)⟩⟩

/-- C1 at `-e prod` with `queries = {prod: "hosts.txt", staging: ["s.example.com"]}`:
`staging` is a key of neither map. -/
theorem Run_targets_within_filter_witness :
    Run ⟨false, false, 10, "prod",
        .map [("prod", .str "hosts.txt"), ("staging", .list [.str "s.example.com"])]⟩ =
      .runQueries [("prod", "hosts.txt")] [] ∧
    "staging" ∉ mapKeys ([("prod", "hosts.txt")] : GoMap String) ∧
    "staging" ∉ mapKeys ([] : GoMap (List String)) :=
  ⟨by decide,
   (Run_targets_within_filter
      ⟨false, false, 10, "prod",
        .map [("prod", .str "hosts.txt"), ("staging", .list [.str "s.example.com"])]⟩
      [("prod", .str "hosts.txt"), ("staging", .list [.str "s.example.com"])]
      [("prod", "hosts.txt")] [] rfl (by decide) (by decide)).2.2 "staging" (by decide)⟩

/-! ## Malformed target data -/

/-- C2, counterexample. With `-e prod` and
`queries = {prod: "hosts.txt", staging: 42}` the value of `staging` is neither a
string nor a list of strings, yet `Run` does not end in `log.Fatal`: the entry
is skipped by the filter before its type is looked at, and `runQueries` is called. -/
theorem Run_malformed_filtered_out :
    (∃ e ∈ [("prod", Value.str "hosts.txt"), ("staging", Value.num 42)],
        e.2.wellFormed = false) ∧
    Run ⟨false, false, 10, "prod",
        .map [("prod", .str "hosts.txt"), ("staging", .num 42)]⟩ =
      .runQueries [("prod", "hosts.txt")] [] ∧
    (Run ⟨false, false, 10, "prod",
        .map [("prod", .str "hosts.txt"), ("staging", .num 42)]⟩).isFatal = false ∧
    (Run ⟨false, false, 10, "prod",
        .map [("prod", .str "hosts.txt"), ("staging", .num 42)]⟩).callsRunQueries = true :=
  ⟨⟨("staging", .num 42), by simp, rfl⟩, by decide, by decide, by decide⟩

/-- C2, amended. When some environment that passes the filter has a value that
is neither a string nor a list whose elements are all strings, `Run` ends in
`log.Fatal` and `runQueries` is not called, whatever the order in which the map
is visited. -/
theorem Run_fatal_on_malformed (cfg : Config) (entries : List (String × Value))
    (hq : cfg.queries = .map entries)
    (hbad : ∃ e ∈ entries, PassesFilter cfg.envCheck e.1 ∧ e.2.wellFormed = false) :
    (∃ site, Run cfg = .fatal site) ∧ (Run cfg).isFatal = true ∧
      (Run cfg).callsRunQueries = false := by
  obtain ⟨site, hs⟩ := rangeQueries_fatal cfg.envCheck entries ⟨[], []⟩ hbad
  have hrun : Run cfg = .fatal site := by rw [Run_map cfg entries hq, hs]
  exact ⟨⟨site, hrun⟩, by rw [hrun]; rfl, by rw [hrun]; rfl⟩

/-- C2 amended at `queries = {staging: "s.txt", prod: ["a.example.com", 443]}`
without a filter. -/
theorem Run_fatal_on_malformed_witness :
    (Run ⟨false, false, 10, "",
        .map [("staging", .str "s.txt"),
              ("prod", .list [.str "a.example.com", .num 443])]⟩).isFatal = true ∧
    (Run ⟨false, false, 10, "",
        .map [("staging", .str "s.txt"),
              ("prod", .list [.str "a.example.com", .num 443])]⟩).callsRunQueries = false :=
  (Run_fatal_on_malformed
    ⟨false, false, 10, "",
      .map [("staging", .str "s.txt"), ("prod", .list [.str "a.example.com", .num 443])]⟩
    [("staging", .str "s.txt"), ("prod", .list [.str "a.example.com", .num 443])] rfl
    ⟨("prod", .list [.str "a.example.com", .num 443]), by simp, by decide, rfl⟩).2

/-! ## Nothing to do -/

/-- C3, counterexample. With `-e prod` and `queries = {staging: "staging.txt"}`
the filter removes every environment, both maps are empty, and `Run` still
calls `runQueries` (with the two empty maps). -/
theorem Run_empty_maps_still_run :
    Run ⟨false, false, 10, "prod", .map [("staging", .str "staging.txt")]⟩ =
      .runQueries [] [] ∧
    (Run ⟨false, false, 10, "prod",
        .map [("staging", .str "staging.txt")]⟩).callsRunQueries = true :=
  ⟨by decide, by decide⟩

/-- C3, amended. When the `queries` key is not set, `Run` exits without calling
`runQueries`.  When `queries` is a map that is empty or whose every environment
is removed by the filter, both maps are empty and `Run` calls `runQueries` with
them. -/
theorem Run_nothing_to_do (cfg : Config) :
    (cfg.queries = .null → Run cfg = .nothingToDo ∧ (Run cfg).callsRunQueries = false) ∧
    (∀ entries, cfg.queries = .map entries →
      (∀ e ∈ entries, ¬ PassesFilter cfg.envCheck e.1) →
        Run cfg = .runQueries [] [] ∧ (Run cfg).callsRunQueries = true) := by
  constructor
  · intro h
    have hrun : Run cfg = .nothingToDo := by simp only [Run, h]
    exact ⟨hrun, by rw [hrun]; rfl⟩
  · intro entries hq hall
    have hrun : Run cfg = .runQueries [] [] := by
      rw [Run_map cfg entries hq, rangeQueries_all_skipped cfg.envCheck entries _ hall]
    exact ⟨hrun, by rw [hrun]; rfl⟩

/-- C3 amended at three configurations: `queries` unset, `queries` an empty
map, and `queries = {staging: "staging.txt", dev: ["d.example.com"]}` under `-e prod`. -/
theorem Run_nothing_to_do_witness :
    Run ⟨true, true, 5, "prod", .null⟩ = .nothingToDo ∧
    Run ⟨false, false, 10, "", .map []⟩ = .runQueries [] [] ∧
    Run ⟨false, false, 10, "prod",
        .map [("staging", .str "staging.txt"), ("dev", .list [.str "d.example.com"])]⟩ =
      .runQueries [] [] :=
  ⟨((Run_nothing_to_do ⟨true, true, 5, "prod", .null⟩).1 rfl).1,
   ((Run_nothing_to_do ⟨false, false, 10, "", .map []⟩).2 [] rfl (by decide)).1,
   ((Run_nothing_to_do ⟨false, false, 10, "prod",
        .map [("staging", .str "staging.txt"), ("dev", .list [.str "d.example.com"])]⟩).2
      [("staging", .str "staging.txt"), ("dev", .list [.str "d.example.com"])] rfl
      (by decide)).1⟩

/-! ## The resolved targets -/

/-- C4. For a `queries` map whose values are all well-formed, `Run` calls
`runQueries`, and the `fileTargets` map it passes has as keys exactly the
environments that pass the filter and whose value is a string, each mapped to
that string; none of these environments is a key of `domainTargets`. -/
theorem Run_fileTargets_exact (cfg : Config) (entries : List (String × Value))
    (hq : cfg.queries = .map entries) (hnd : (entries.map Prod.fst).Nodup)
    (hwf : ∀ e ∈ entries, e.2.wellFormed = true) :
    ∃ ft dt, Run cfg = .runQueries ft dt ∧
      (∀ env, env ∈ mapKeys ft ↔
        (PassesFilter cfg.envCheck env ∧ ∃ s, (env, Value.str s) ∈ entries)) ∧
      (∀ env s, mapGet ft env = some s ↔
        (PassesFilter cfg.envCheck env ∧ (env, Value.str s) ∈ entries)) ∧
      (∀ env s, PassesFilter cfg.envCheck env → (env, Value.str s) ∈ entries →
        env ∉ mapKeys dt) := by
  obtain ⟨st, hloop⟩ := rangeQueries_total cfg.envCheck entries ⟨[], []⟩
    (fun e he _ => hwf e he)
  have hget : ∀ env s, mapGet st.fileTargets env = some s ↔
      (PassesFilter cfg.envCheck env ∧ (env, Value.str s) ∈ entries) := by
    intro env s
    constructor
    · intro h
      rcases rangeQueries_sound_file cfg.envCheck env s entries _ _ hloop h with h' | ⟨hm, hp⟩
      · simp [mapGet] at h'
      · exact ⟨hp, hm⟩
    · rintro ⟨hp, hm⟩
      exact rangeQueries_complete_file cfg.envCheck env s entries _ _ hnd hm hp hloop
  refine ⟨st.fileTargets, st.domainTargets, ?_, ?_, hget, ?_⟩
  · rw [Run_map cfg entries hq, hloop]
  · intro env
    rw [mem_mapKeys_iff]
    constructor
    · rintro ⟨s, hs⟩
      exact ⟨((hget env s).mp hs).1, s, ((hget env s).mp hs).2⟩
    · rintro ⟨hp, s, hm⟩
      exact ⟨s, (hget env s).mpr ⟨hp, hm⟩⟩
  · intro env s _ hm henv
    obtain ⟨l, hl⟩ := (mem_mapKeys_iff _ env).mp henv
    rcases rangeQueries_sound_domain cfg.envCheck env l entries _ _ hloop hl with
      h' | ⟨_, hm', _⟩
    · simp [mapGet] at h'
    · cases value_unique entries env _ _ hnd hm hm'

/-- C4 at `-e prod,dev` with
`queries = {prod: "prod.txt", staging: "staging.txt", dev: ["d.example.com"]}`. -/
theorem Run_fileTargets_exact_witness :
    ∃ ft dt,
      Run ⟨false, false, 10, "prod,dev",
          .map [("prod", .str "prod.txt"), ("staging", .str "staging.txt"),
                ("dev", .list [.str "d.example.com"])]⟩ = .runQueries ft dt ∧
      mapGet ft "prod" = some "prod.txt" ∧ "prod" ∉ mapKeys dt := by
  obtain ⟨ft, dt, hrun, _, hget, hdom⟩ :=
    Run_fileTargets_exact
      ⟨false, false, 10, "prod,dev",
        .map [("prod", .str "prod.txt"), ("staging", .str "staging.txt"),
              ("dev", .list [.str "d.example.com"])]⟩
      [("prod", .str "prod.txt"), ("staging", .str "staging.txt"),
       ("dev", .list [.str "d.example.com"])] rfl (by decide) (by decide)
  exact ⟨ft, dt, hrun, (hget "prod" "prod.txt").mpr ⟨by decide, by simp⟩,
    hdom "prod" "prod.txt" (by decide) (by simp)⟩

/-- C5. For a well-formed `queries` map and an environment that passes the
filter and whose value is a non-empty list of strings, `Run` calls `runQueries`
and `domainTargets[env]` is that list: equal as a list, hence of the same length
and with the same hostname at every index. -/
theorem Run_domainTargets_preserved (cfg : Config) (entries : List (String × Value))
    (env : String) (hosts : List String)
    (hq : cfg.queries = .map entries) (hnd : (entries.map Prod.fst).Nodup)
    (hwf : ∀ e ∈ entries, e.2.wellFormed = true)
    (hm : (env, Value.list (hosts.map Value.str)) ∈ entries) (hne : hosts ≠ [])
    (hp : PassesFilter cfg.envCheck env) :
    ∃ ft dt, Run cfg = .runQueries ft dt ∧ mapGet dt env = some hosts ∧
      ∃ l, mapGet dt env = some l ∧ l.length = hosts.length ∧
        ∀ k, k < hosts.length → l[k]? = hosts[k]? := by
  obtain ⟨st, hloop⟩ := rangeQueries_total cfg.envCheck entries ⟨[], []⟩
    (fun e he _ => hwf e he)
  have hget := rangeQueries_complete_domain cfg.envCheck env hosts entries _ _ hnd hm hne hp hloop
  refine ⟨st.fileTargets, st.domainTargets, ?_, hget, hosts, hget, rfl, fun _ _ => rfl⟩
  rw [Run_map cfg entries hq, hloop]

/-- C5 at `queries = {prod: ["b.example.com", "a.example.com", "b.example.com"],
staging: "s.txt"}` without a filter: order and duplicates are kept. -/
theorem Run_domainTargets_preserved_witness :
    ∃ ft dt,
      Run ⟨false, false, 10, "",
          .map [("prod", .list [.str "b.example.com", .str "a.example.com",
                                .str "b.example.com"]),
                ("staging", .str "s.txt")]⟩ = .runQueries ft dt ∧
      mapGet dt "prod" = some ["b.example.com", "a.example.com", "b.example.com"] := by
  obtain ⟨ft, dt, hrun, hget, _⟩ :=
    Run_domainTargets_preserved
      ⟨false, false, 10, "",
        .map [("prod", .list [.str "b.example.com", .str "a.example.com",
                              .str "b.example.com"]),
              ("staging", .str "s.txt")]⟩
      [("prod", .list [.str "b.example.com", .str "a.example.com", .str "b.example.com"]),
       ("staging", .str "s.txt")]
      "prod" ["b.example.com", "a.example.com", "b.example.com"]
      rfl (by decide) (by decide) (by simp) (by simp) (by decide)
  exact ⟨ft, dt, hrun, hget⟩

/-- C8. An environment whose value is an empty list raises no fatal error (its
iteration leaves both maps as they were) and, when `Run` reaches `runQueries`,
is a key of neither `fileTargets` nor `domainTargets`; `Run` does reach
`runQueries` when the entries that pass the filter are well-formed. -/
theorem Run_empty_list_no_entry (cfg : Config) (entries : List (String × Value))
    (env : String) (hq : cfg.queries = .map entries)
    (hnd : (entries.map Prod.fst).Nodup)
    (hm : (env, Value.list []) ∈ entries) (hp : PassesFilter cfg.envCheck env) :
    (∀ st, processEntry cfg.envCheck st (env, .list []) = .ok st) ∧
    (∀ ft dt, Run cfg = .runQueries ft dt → env ∉ mapKeys ft ∧ env ∉ mapKeys dt) ∧
    ((∀ e ∈ entries, PassesFilter cfg.envCheck e.1 → e.2.wellFormed = true) →
      ∃ ft dt, Run cfg = .runQueries ft dt) := by
  refine ⟨?_, ?_, ?_⟩
  · intro st
    have h := processEntry_list cfg.envCheck st env [] hp
    simpa using h
  · intro ft dt hrun
    have hloop := (Run_runQueries_iff cfg entries hq ft dt).mp hrun
    constructor
    · intro henv
      obtain ⟨v, hv⟩ := (mem_mapKeys_iff ft env).mp henv
      rcases rangeQueries_sound_file cfg.envCheck env v entries _ _ hloop hv with h | ⟨hm', _⟩
      · simp [mapGet] at h
      · cases value_unique entries env _ _ hnd hm hm'
    · intro henv
      obtain ⟨l, hl⟩ := (mem_mapKeys_iff dt env).mp henv
      rcases rangeQueries_sound_domain cfg.envCheck env l entries _ _ hloop hl with
        h | ⟨hl', hm', _⟩
      · simp [mapGet] at h
      · have heq := value_unique entries env _ _ hnd hm hm'
        simp only [Value.list.injEq] at heq
        cases l with
        | nil => exact hl' rfl
        | cons _ _ => simp at heq
  · intro hwf
    obtain ⟨st, hloop⟩ := rangeQueries_total cfg.envCheck entries ⟨[], []⟩ hwf
    exact ⟨st.fileTargets, st.domainTargets, by rw [Run_map cfg entries hq, hloop]⟩

/-- C8 at `queries = {prod: [], staging: "s.txt"}` without a filter. -/
theorem Run_empty_list_no_entry_witness :
    Run ⟨false, false, 10, "", .map [("prod", .list []), ("staging", .str "s.txt")]⟩ =
      .runQueries [("staging", "s.txt")] [] ∧
    "prod" ∉ mapKeys ([("staging", "s.txt")] : GoMap String) ∧
    "prod" ∉ mapKeys ([] : GoMap (List String)) :=
  ⟨by decide,
   (Run_empty_list_no_entry
      ⟨false, false, 10, "", .map [("prod", .list []), ("staging", .str "s.txt")]⟩
      [("prod", .list []), ("staging", .str "s.txt")] "prod" rfl (by decide) (by simp)
      (by decide)).2.1 [("staging", "s.txt")] [] (by decide)⟩

/-! ## The unset `queries` key -/

/-- C6. When the `queries` key is not set, `Run` does not call `runQueries` and
ends the process with exit status 1, whatever the `environments`, `silent`,
`debug` and `timeout` flags are. -/
theorem Run_queries_unset (cfg : Config) (h : cfg.queries = .null) :
    Run cfg = .nothingToDo ∧ (Run cfg).callsRunQueries = false ∧
      (Run cfg).exitStatus = some 1 := by
  have hrun : Run cfg = .nothingToDo := by simp only [Run, h]
  exact ⟨hrun, by rw [hrun]; rfl, by rw [hrun]; rfl⟩

/-- C6 with `--debug --silent --timeout 3 -e prod,staging`. -/
theorem Run_queries_unset_witness :
    (Run ⟨true, true, 3, "prod,staging", .null⟩).callsRunQueries = false ∧
    (Run ⟨true, true, 3, "prod,staging", .null⟩).exitStatus = some 1 :=
  (Run_queries_unset ⟨true, true, 3, "prod,staging", .null⟩ rfl).2

/-! ## The levelled writer -/

/-- C7. `WriteLevel` at a level `l ≥ lw.Level` gives exactly what the wrapped
writer's `Write(p)` gives; at a level `l < lw.Level` the wrapped writer is not
written to (its sink is unchanged) and the result is `(len(p), nil)`. -/
theorem WriteLevel_filters {σ : Type} (lw : LevelWriter σ) (l : Int) (p : List Nat) (sink : σ) :
    (l ≥ lw.Level → lw.WriteLevel l p sink = lw.Write sink p) ∧
    (l < lw.Level → lw.WriteLevel l p sink = (⟨p.length, none⟩, sink)) := by
  constructor
  · intro h
    simp only [LevelWriter.WriteLevel, h, if_true]
  · intro h
    have hn : ¬ l ≥ lw.Level := not_le.mpr h
    simp only [LevelWriter.WriteLevel, hn, if_false]

/-- C7 for a writer that appends to a buffer and reports a short write, with
threshold `InfoLevel` (1): an `ErrorLevel` (3) message is written, a
`DebugLevel` (0) message leaves the buffer as it was. -/
theorem WriteLevel_filters_witness :
    LevelWriter.WriteLevel
        ⟨fun buf p => (⟨(p.length : Int) - 1, some "short write"⟩, buf ++ p), 1⟩
        3 [104, 105] [33] =
      (⟨1, some "short write"⟩, [33, 104, 105]) ∧
    LevelWriter.WriteLevel
        ⟨fun buf p => (⟨(p.length : Int) - 1, some "short write"⟩, buf ++ p), 1⟩
        0 [104, 105] [33] =
      (⟨2, none⟩, [33]) :=
  ⟨(WriteLevel_filters
      ⟨fun buf p => (⟨(p.length : Int) - 1, some "short write"⟩, buf ++ p), 1⟩
      3 [104, 105] [33]).1 (by decide),
   (WriteLevel_filters
      ⟨fun buf p => (⟨(p.length : Int) - 1, some "short write"⟩, buf ++ p), 1⟩
      0 [104, 105] [33]).2 (by decide)⟩

end SslChecker
